import Mathlib

/-!
Verification of the uwsgi WebDAV plugin (src/plugins/webdav/webdav.c).

The development shallowly embeds the plugin's path resolution, dead-property
store, method handlers and recursive delete as executable Lean functions over
a first-order filesystem tree, and settles the frozen claims C1..C10 about
them.  Byte strings are `List Char`; machine sizes are `Nat`.
-/

/-- Byte strings of the C code, as lists of characters. -/
abbrev Txt := List Char

/-- A filesystem tree.  A directory is a chain of named entries built from
`dirNil` / `dirCons` (this keeps every recursion structural).  `symlink abs
target` is a symbolic link whose target is the component list `target`,
absolute when `abs` is true. -/
inductive Entry where
  | file : Entry
  | symlink : Bool → List Txt → Entry
  | dirNil : Entry
  | dirCons : Txt → Entry → Entry → Entry

/-- Whether an entry is a directory (an empty or non-empty `dirNil`/`dirCons`
chain). -/
def isDirE : Entry → Bool
  | Entry.dirNil => true
  | Entry.dirCons _ _ _ => true
  | _ => false

/-- Look a name up in a directory chain. -/
def lookupE (c : Txt) : Entry → Option Entry
  | Entry.dirCons name child rest =>
      if name = c then some child else lookupE c rest
  | _ => none

/-- The entry at a canonical component path, walking directories only. -/
def nodeAt (fs : Entry) : List Txt → Option Entry
  | [] => some fs
  | c :: rest =>
      if isDirE fs then (lookupE c fs).bind fun e => nodeAt e rest
      else none

/-- Whether an entry is a symbolic link. -/
def isSymlinkE : Entry → Bool
  | Entry.symlink _ _ => true
  | _ => false

/-- The absolute flag of a symbolic link (false on other entries). -/
def symAbs : Entry → Bool
  | Entry.symlink ab _ => ab
  | _ => false

/-- The target components of a symbolic link (empty on other entries). -/
def symComps : Entry → List Txt
  | Entry.symlink _ t => t
  | _ => []

/-- True when the tree contains no symbolic link anywhere. -/
def noSymlinks : Entry → Bool
  | Entry.file => true
  | Entry.symlink _ _ => false
  | Entry.dirNil => true
  | Entry.dirCons _ child rest => noSymlinks child && noSymlinks rest

/-- Split a byte string at every slash, keeping empty pieces (the helper
behind `splitPath`).  Never returns the empty list. -/
def splitSlash : Txt → List Txt
  | [] => [[]]
  | c :: rest =>
      if c = '/' then [] :: splitSlash rest
      else
        match splitSlash rest with
        | [] => [[c]]
        | p :: ps => (c :: p) :: ps

/-- The slash-separated components of a path, empty components dropped (as
repeated slashes collapse under realpath). -/
def splitPath (s : Txt) : List Txt :=
  (splitSlash s).filter (fun c => c ≠ [])

/-- Join canonical components back into an absolute path string; the empty
list is the root `/`. -/
def joinPath : List Txt → Txt
  | [] => ['/']
  | [c] => '/' :: c
  | c :: rest => ('/' :: c) ++ joinPath rest

/-- Looking up the next component: the entry named `c` of the directory at
the already-resolved path `res`. -/
def stepLookup (fs : Entry) (res : List Txt) (c : Txt) : Option Entry :=
  (nodeAt fs res).bind fun par => if isDirE par then lookupE c par else none

/-- One resolution pass of POSIX realpath over a component list: `res` is the
canonical path resolved so far, `.` and empty components are skipped, `..`
drops the last resolved component (staying at the root), and a name must be
found in the directory at `res`; a symlink found there splices its target into
the remaining components.  Fuel decreases at every step, so the recursion is
structural and computable by the kernel. -/
def realpathComps (fs : Entry) : Nat → List Txt → List Txt → Option (List Txt)
  | 0, _, _ => none
  | _ + 1, res, [] => some res
  | fuel + 1, res, c :: rest =>
      if c = [] ∨ c = ['.'] then realpathComps fs fuel res rest
      else if c = ['.', '.'] then realpathComps fs fuel res.dropLast rest
      else
        (stepLookup fs res c).bind fun e =>
          if isSymlinkE e then
            if symAbs e then realpathComps fs fuel [] (symComps e ++ rest)
            else realpathComps fs fuel res (symComps e ++ rest)
          else realpathComps fs fuel (res ++ [c]) rest

/-- PATH_MAX of the platform the plugin targets. -/
def pathMax : Nat := 4096

/-- POSIX realpath(3) over the model filesystem: canonicalise the whole path,
requiring every component (the last included) to exist, and fail when the
result would overflow the PATH_MAX output buffer. -/
def realpath (fs : Entry) (s : Txt) : Option Txt :=
  match realpathComps fs (s.length + 1) [] (splitPath s) with
  | none => none
  | some comps =>
      let r := joinPath comps
      if r.length < pathMax then some r else none

/-- webdav.c lines 215-229, `uwsgi_webdav_expand_path`: concatenate the
mountpoint's docroot, a slash and the request path, and run realpath on the
result.  A `none` models the C function's 0 return.  Note that the source
performs no containment check on the canonicalised result. -/
def uwsgi_webdav_expand_path (fs : Entry) (docroot item : Txt) : Option Txt :=
  realpath fs (docroot ++ '/' :: item)

/-- Split a byte string at its LAST slash: `some (before, suffix)` where
`suffix` starts with that slash (`uwsgi_get_last_charn` plus the pointer
arithmetic of `uwsgi_webdav_expand_fake_path`). -/
def lastSlashSplit : Txt → Option (Txt × Txt)
  | [] => none
  | c :: rest =>
      match lastSlashSplit rest with
      | some (p, s) => some (c :: p, s)
      | none => if c = '/' then some ([], c :: rest) else none

/-- webdav.c lines 231-242, `uwsgi_webdav_expand_fake_path`: find the last
slash of the request path, resolve the part before it strictly, and append
the rest (slash included) literally, refusing when the result would reach
PATH_MAX. -/
def uwsgi_webdav_expand_fake_path (fs : Entry) (docroot item : Txt) : Option Txt :=
  match lastSlashSplit item with
  | none => none
  | some (pre, suffix) =>
      match uwsgi_webdav_expand_path fs docroot pre with
      | none => none
      | some filename =>
          if pathMax ≤ filename.length + suffix.length then none
          else some (filename ++ suffix)

/-- A filesystem with `/srv` (the mountpoint) next to `/etc/passwd`, used to
exhibit docroot escape. -/
def fsEscape : Entry :=
  Entry.dirCons "srv".data Entry.dirNil
    (Entry.dirCons "etc".data (Entry.dirCons "passwd".data Entry.file Entry.dirNil)
      Entry.dirNil)

/-- The helper `splitSlash` never produces the empty list. -/
theorem splitSlash_ne_nil (s : Txt) : splitSlash s ≠ [] := by
  induction s with
  | nil => simp [splitSlash]
  | cons c rest ih =>
    by_cases hc : c = '/'
    · simp [splitSlash, hc]
    · simp only [splitSlash, if_neg hc]
      cases h : splitSlash rest with
      | nil => simp
      | cons p ps => simp

/-- Splitting distributes over a slash-separated concatenation. -/
theorem splitSlash_append (a b : Txt) :
    splitSlash (a ++ '/' :: b) = splitSlash a ++ splitSlash b := by
  induction a with
  | nil => simp [splitSlash]
  | cons c rest ih =>
    by_cases hc : c = '/'
    · subst hc
      simp [splitSlash, ih]
    · cases h : splitSlash rest with
      | nil => exact absurd h (splitSlash_ne_nil rest)
      | cons p ps =>
        simp only [List.cons_append, splitSlash, if_neg hc, List.append_eq]
        rw [ih, h]
        simp

/-- Path components distribute over a slash-separated concatenation. -/
theorem splitPath_append (a b : Txt) :
    splitPath (a ++ '/' :: b) = splitPath a ++ splitPath b := by
  simp [splitPath, splitSlash_append, List.filter_append]

/-- A leading slash does not change the components. -/
theorem splitPath_slash_cons (s : Txt) : splitPath ('/' :: s) = splitPath s := by
  simp [splitPath, splitSlash]

/-- A slash-free string splits into the single piece it is. -/
theorem splitSlash_no_slash (s : Txt) (h : '/' ∉ s) : splitSlash s = [s] := by
  induction s with
  | nil => simp [splitSlash]
  | cons c rest ih =>
    have hc : c ≠ '/' := fun hx => h (hx ▸ List.mem_cons_self c rest)
    have hr : '/' ∉ rest := fun hx => h (List.mem_cons_of_mem _ hx)
    simp only [splitSlash, if_neg hc, ih hr]

/-- A nonempty slash-free string is its own single path component. -/
theorem splitPath_single (s : Txt) (h1 : s ≠ []) (h2 : '/' ∉ s) :
    splitPath s = [s] := by
  simp [splitPath, splitSlash_no_slash s h2, h1]

/-- Every piece produced by `splitSlash` is slash-free. -/
theorem splitSlash_no_slash_mem (s : Txt) : ∀ c ∈ splitSlash s, '/' ∉ c := by
  induction s with
  | nil => simp [splitSlash]
  | cons c rest ih =>
    by_cases hc : c = '/'
    · simp only [splitSlash, if_pos hc]
      intro x hx
      rcases List.mem_cons.mp hx with h | h
      · simp [h]
      · exact ih x h
    · cases h : splitSlash rest with
      | nil => exact absurd h (splitSlash_ne_nil rest)
      | cons p ps =>
        simp only [splitSlash, if_neg hc, h]
        intro x hx
        rcases List.mem_cons.mp hx with hh | hh
        · subst hh
          intro hmem
          rcases List.mem_cons.mp hmem with h1 | h1
          · exact hc h1.symm
          · have := ih p (h ▸ List.mem_cons_self p ps)
            exact this h1
        · exact ih x (h ▸ List.mem_cons_of_mem p hh)

/-- Every path component is nonempty and slash-free. -/
theorem splitPath_good (s : Txt) : ∀ c ∈ splitPath s, c ≠ [] ∧ '/' ∉ c := by
  intro c hc
  have h1 := List.of_mem_filter hc
  have h2 := List.mem_of_mem_filter hc
  refine ⟨by simpa using h1, splitSlash_no_slash_mem s c h2⟩

/-- There are at most as many path components as characters. -/
theorem splitPath_length_le (s : Txt) : (splitPath s).length ≤ s.length := by
  induction s with
  | nil => simp [splitPath, splitSlash]
  | cons c rest ih =>
    by_cases hc : c = '/'
    · simpa [splitPath, splitSlash, if_pos hc] using Nat.le_succ_of_le ih
    · cases h : splitSlash rest with
      | nil => exact absurd h (splitSlash_ne_nil rest)
      | cons p ps =>
        simp only [splitPath, splitSlash, if_neg hc, h] at ih ⊢
        by_cases hp : p = []
        · subst hp
          simpa using Nat.succ_le_succ (by simpa using ih)
        · simp only [List.filter_cons, hp] at ih ⊢
          simp only [decide_not] at ih ⊢
          simp [hp] at ih ⊢
          omega

/-- A joined path always starts with a slash. -/
theorem joinPath_head (l : List Txt) : ∃ t, joinPath l = '/' :: t := by
  cases l with
  | nil => exact ⟨[], rfl⟩
  | cons c rest =>
    cases rest with
    | nil => exact ⟨c, rfl⟩
    | cons d ds => exact ⟨c ++ joinPath (d :: ds), rfl⟩

/-- Appending one more component to a nonempty canonical path appends a
slash and the component to the joined string. -/
theorem joinPath_snoc (m : List Txt) (x : Txt) (hm : m ≠ []) :
    joinPath (m ++ [x]) = joinPath m ++ '/' :: x := by
  induction m with
  | nil => exact absurd rfl hm
  | cons c rest ih =>
    cases rest with
    | nil => rfl
    | cons d ds =>
      have h2 := ih (by simp)
      simp only [List.cons_append] at h2 ⊢
      simp [joinPath, h2]

/-- Splitting a joined list of good components gives the list back. -/
theorem splitPath_joinPath (comps : List Txt)
    (h : ∀ c ∈ comps, c ≠ [] ∧ '/' ∉ c) : splitPath (joinPath comps) = comps := by
  induction comps with
  | nil => decide
  | cons c rest ih =>
    have hc := h c (List.mem_cons_self c rest)
    have hrest : ∀ x ∈ rest, x ≠ [] ∧ '/' ∉ x :=
      fun x hx => h x (List.mem_cons_of_mem c hx)
    cases rest with
    | nil =>
      show splitPath ('/' :: c) = [c]
      rw [splitPath_slash_cons, splitPath_single c hc.1 hc.2]
    | cons d ds =>
      obtain ⟨t, ht⟩ := joinPath_head (d :: ds)
      have hj : joinPath (c :: d :: ds) = '/' :: (c ++ '/' :: t) := by
        simp [joinPath, ht]
      rw [hj, splitPath_slash_cons, splitPath_append,
        splitPath_single c hc.1 hc.2]
      have hsp : splitPath t = d :: ds := by
        have h2 := ih hrest
        rw [ht, splitPath_slash_cons] at h2
        exact h2
      rw [hsp]
      rfl

/-- Looking up in a symlink-free directory yields a symlink-free entry. -/
theorem noSymlinks_lookupE (e e' : Entry) (c : Txt) (h : noSymlinks e = true)
    (hl : lookupE c e = some e') : noSymlinks e' = true := by
  induction e with
  | file => cases hl
  | symlink ab t => cases hl
  | dirNil => cases hl
  | dirCons name child rest ih1 ih2 =>
    simp only [noSymlinks, Bool.and_eq_true] at h
    simp only [lookupE] at hl
    by_cases hn : name = c
    · rw [if_pos hn] at hl
      cases hl
      exact h.1
    · rw [if_neg hn] at hl
      exact ih2 h.2 hl

/-- The entry found at any path of a symlink-free tree is symlink-free. -/
theorem noSymlinks_nodeAt (fs : Entry) (p : List Txt) (e : Entry)
    (hns : noSymlinks fs = true) (h : nodeAt fs p = some e) :
    noSymlinks e = true := by
  induction p generalizing fs with
  | nil =>
    replace h : some fs = some e := h
    cases h
    exact hns
  | cons c rest ih =>
    simp only [nodeAt] at h
    by_cases hd : isDirE fs
    · rw [if_pos hd] at h
      cases hl : lookupE c fs with
      | none => rw [hl] at h; cases h
      | some e1 =>
        rw [hl, Option.some_bind] at h
        exact ih e1 (noSymlinks_lookupE fs e1 c hns hl) h
    · rw [if_neg hd] at h
      cases h

/-- A successful component lookup in a symlink-free tree is symlink-free and
not itself a symlink. -/
theorem stepLookup_noSymlinks (fs : Entry) (res : List Txt) (c : Txt) (e : Entry)
    (hns : noSymlinks fs = true) (h : stepLookup fs res c = some e) :
    noSymlinks e = true ∧ isSymlinkE e = false := by
  unfold stepLookup at h
  cases hn : nodeAt fs res with
  | none => rw [hn] at h; cases h
  | some par =>
    rw [hn, Option.some_bind] at h
    by_cases hd : isDirE par
    · rw [if_pos hd] at h
      have h1 := noSymlinks_nodeAt fs res par hns hn
      have h2 := noSymlinks_lookupE par e c h1 h
      refine ⟨h2, ?_⟩
      cases e <;> simp_all [isSymlinkE, noSymlinks]
    · rw [if_neg hd] at h
      cases h

/-- Unfolding `realpathComps` on a skipped component (empty or a dot). -/
theorem realpathComps_cons_skip (fs : Entry) (f : Nat) (res : List Txt) (c : Txt)
    (rest : List Txt) (hc1 : c = [] ∨ c = ['.']) :
    realpathComps fs (f + 1) res (c :: rest) = realpathComps fs f res rest := by
  simp only [realpathComps, if_pos hc1]

/-- Unfolding `realpathComps` on a `..` component. -/
theorem realpathComps_cons_dd (fs : Entry) (f : Nat) (res : List Txt)
    (rest : List Txt) :
    realpathComps fs (f + 1) res (['.', '.'] :: rest) =
      realpathComps fs f res.dropLast rest := by
  simp [realpathComps]

/-- Unfolding `realpathComps` on a plain name that is found and is not a
symlink. -/
theorem realpathComps_cons_name (fs : Entry) (f : Nat) (res : List Txt) (c : Txt)
    (rest : List Txt) (e : Entry)
    (hc1 : ¬(c = [] ∨ c = ['.'])) (hc2 : c ≠ ['.', '.'])
    (hl : stepLookup fs res c = some e) (hse : isSymlinkE e = false) :
    realpathComps fs (f + 1) res (c :: rest) =
      realpathComps fs f (res ++ [c]) rest := by
  simp only [realpathComps, if_neg hc1, if_neg hc2, hl, Option.some_bind, hse,
    Bool.false_eq_true, if_false]

/-- Unfolding `realpathComps` on a plain name that is not found. -/
theorem realpathComps_cons_none (fs : Entry) (f : Nat) (res : List Txt) (c : Txt)
    (rest : List Txt)
    (hc1 : ¬(c = [] ∨ c = ['.'])) (hc2 : c ≠ ['.', '.'])
    (hl : stepLookup fs res c = none) :
    realpathComps fs (f + 1) res (c :: rest) = none := by
  simp only [realpathComps, if_neg hc1, if_neg hc2, hl, Option.none_bind]

/-- With enough fuel the result of a symlink-free resolution is unchanged;
`xs.length + 1` steps always suffice. -/
theorem realpathComps_fuel (fs : Entry) (hns : noSymlinks fs = true) :
    ∀ (xs : List Txt) (f : Nat) (res out : List Txt),
      realpathComps fs f res xs = some out →
      ∀ g, xs.length + 1 ≤ g → realpathComps fs g res xs = some out := by
  intro xs
  induction xs with
  | nil =>
    intro f res out h g hg
    cases f with
    | zero => cases h
    | succ f =>
      replace h : some res = some out := h
      obtain ⟨g', rfl⟩ : ∃ g', g = g' + 1 := ⟨g - 1, by omega⟩
      exact h
  | cons c rest ih =>
    intro f res out h g hg
    cases f with
    | zero => cases h
    | succ f =>
      obtain ⟨g', rfl⟩ : ∃ g', g = g' + 1 := ⟨g - 1, by omega⟩
      have hg2 : rest.length + 1 ≤ g' := by
        simp only [List.length_cons] at hg
        omega
      by_cases hc1 : c = [] ∨ c = ['.']
      · rw [realpathComps_cons_skip fs f res c rest hc1] at h
        rw [realpathComps_cons_skip fs g' res c rest hc1]
        exact ih f res out h g' hg2
      · by_cases hc2 : c = ['.', '.']
        · subst hc2
          rw [realpathComps_cons_dd] at h
          rw [realpathComps_cons_dd]
          exact ih f res.dropLast out h g' hg2
        · cases hl : stepLookup fs res c with
          | none =>
            rw [realpathComps_cons_none fs f res c rest hc1 hc2 hl] at h
            cases h
          | some e =>
            have hse := (stepLookup_noSymlinks fs res c e hns hl).2
            rw [realpathComps_cons_name fs f res c rest e hc1 hc2 hl hse] at h
            rw [realpathComps_cons_name fs g' res c rest e hc1 hc2 hl hse]
            exact ih f (res ++ [c]) out h g' hg2

/-- With no symlinks and no `..` component, resolution only extends the
already-resolved path. -/
theorem realpathComps_growth (fs : Entry) (hns : noSymlinks fs = true) :
    ∀ (xs : List Txt) (f : Nat) (res out : List Txt), ['.', '.'] ∉ xs →
      realpathComps fs f res xs = some out → res <+: out := by
  intro xs
  induction xs with
  | nil =>
    intro f res out _ h
    cases f with
    | zero => cases h
    | succ f =>
      replace h : some res = some out := h
      cases h
      exact List.prefix_refl res
  | cons c rest ih =>
    intro f res out hmem h
    cases f with
    | zero => cases h
    | succ f =>
      have hmem2 : ['.', '.'] ∉ rest := fun hx => hmem (List.mem_cons_of_mem _ hx)
      have hc2 : c ≠ ['.', '.'] := fun hx => hmem (hx ▸ List.mem_cons_self _ _)
      by_cases hc1 : c = [] ∨ c = ['.']
      · rw [realpathComps_cons_skip fs f res c rest hc1] at h
        exact ih f res out hmem2 h
      · cases hl : stepLookup fs res c with
        | none =>
          rw [realpathComps_cons_none fs f res c rest hc1 hc2 hl] at h
          cases h
        | some e =>
          have hse := (stepLookup_noSymlinks fs res c e hns hl).2
          rw [realpathComps_cons_name fs f res c rest e hc1 hc2 hl hse] at h
          exact (List.prefix_append res [c]).trans (ih f (res ++ [c]) out hmem2 h)

/-- A run over plain names (no dots, nonempty) that succeeds appends exactly
those names. -/
theorem realpathComps_plain (fs : Entry) (hns : noSymlinks fs = true) :
    ∀ (xs : List Txt) (f : Nat) (res out : List Txt),
      (∀ c ∈ xs, c ≠ [] ∧ c ≠ ['.'] ∧ c ≠ ['.', '.']) →
      realpathComps fs f res xs = some out → out = res ++ xs := by
  intro xs
  induction xs with
  | nil =>
    intro f res out _ h
    cases f with
    | zero => cases h
    | succ f =>
      replace h : some res = some out := h
      cases h
      simp
  | cons c rest ih =>
    intro f res out hxs h
    cases f with
    | zero => cases h
    | succ f =>
      have hc := hxs c (List.mem_cons_self c rest)
      have hrest : ∀ x ∈ rest, x ≠ [] ∧ x ≠ ['.'] ∧ x ≠ ['.', '.'] :=
        fun x hx => hxs x (List.mem_cons_of_mem c hx)
      have hc1 : ¬(c = [] ∨ c = ['.']) := by
        rintro (h1 | h1)
        · exact hc.1 h1
        · exact hc.2.1 h1
      cases hl : stepLookup fs res c with
      | none =>
        rw [realpathComps_cons_none fs f res c rest hc1 hc.2.2 hl] at h
        cases h
      | some e =>
        have hse := (stepLookup_noSymlinks fs res c e hns hl).2
        rw [realpathComps_cons_name fs f res c rest e hc1 hc.2.2 hl hse] at h
        rw [ih f (res ++ [c]) out hrest h]
        simp

/-- Resolution of good components (nonempty, slash-free) from a good resolved
path yields good components. -/
theorem realpathComps_good (fs : Entry) (hns : noSymlinks fs = true) :
    ∀ (xs : List Txt) (f : Nat) (res out : List Txt),
      (∀ c ∈ xs, c ≠ [] ∧ '/' ∉ c) → (∀ c ∈ res, c ≠ [] ∧ '/' ∉ c) →
      realpathComps fs f res xs = some out → ∀ c ∈ out, c ≠ [] ∧ '/' ∉ c := by
  intro xs
  induction xs with
  | nil =>
    intro f res out _ hres h
    cases f with
    | zero => cases h
    | succ f =>
      replace h : some res = some out := h
      cases h
      exact hres
  | cons c rest ih =>
    intro f res out hxs hres h
    cases f with
    | zero => cases h
    | succ f =>
      have hrest : ∀ x ∈ rest, x ≠ [] ∧ '/' ∉ x :=
        fun x hx => hxs x (List.mem_cons_of_mem c hx)
      by_cases hc1 : c = [] ∨ c = ['.']
      · rw [realpathComps_cons_skip fs f res c rest hc1] at h
        exact ih f res out hrest hres h
      · by_cases hc2 : c = ['.', '.']
        · subst hc2
          rw [realpathComps_cons_dd] at h
          exact ih f res.dropLast out hrest
            (fun x hx => hres x (List.mem_of_mem_dropLast hx)) h
        · cases hl : stepLookup fs res c with
          | none =>
            rw [realpathComps_cons_none fs f res c rest hc1 hc2 hl] at h
            cases h
          | some e =>
            have hse := (stepLookup_noSymlinks fs res c e hns hl).2
            rw [realpathComps_cons_name fs f res c rest e hc1 hc2 hl hse] at h
            refine ih f (res ++ [c]) out hrest ?_ h
            intro x hx
            rcases List.mem_append.mp hx with hx | hx
            · exact hres x hx
            · have : x = c := by simpa using hx
              exact this ▸ hxs c (List.mem_cons_self c rest)

/-- A successful symlink-free resolution of a concatenation decomposes into a
run over the first part followed by a run over the second. -/
theorem realpathComps_append (fs : Entry) (hns : noSymlinks fs = true) :
    ∀ (xs ys : List Txt) (f : Nat) (res out : List Txt),
      realpathComps fs f res (xs ++ ys) = some out →
      ∃ m, realpathComps fs f res xs = some m ∧
        realpathComps fs (f - xs.length) m ys = some out := by
  intro xs
  induction xs with
  | nil =>
    intro ys f res out h
    cases f with
    | zero => cases h
    | succ f => exact ⟨res, rfl, h⟩
  | cons c rest ih =>
    intro ys f res out h
    cases f with
    | zero => cases h
    | succ f =>
      simp only [List.cons_append] at h
      have hlen : f + 1 - (c :: rest).length = f - rest.length := by
        simp only [List.length_cons]
        omega
      by_cases hc1 : c = [] ∨ c = ['.']
      · rw [realpathComps_cons_skip fs f res c (rest ++ ys) hc1] at h
        obtain ⟨m, h1, h2⟩ := ih ys f res out h
        refine ⟨m, ?_, ?_⟩
        · rw [realpathComps_cons_skip fs f res c rest hc1]
          exact h1
        · rw [hlen]
          exact h2
      · by_cases hc2 : c = ['.', '.']
        · subst hc2
          rw [realpathComps_cons_dd] at h
          obtain ⟨m, h1, h2⟩ := ih ys f res.dropLast out h
          refine ⟨m, ?_, ?_⟩
          · rw [realpathComps_cons_dd]
            exact h1
          · rw [hlen]
            exact h2
        · cases hl : stepLookup fs res c with
          | none =>
            rw [realpathComps_cons_none fs f res c (rest ++ ys) hc1 hc2 hl] at h
            cases h
          | some e =>
            have hse := (stepLookup_noSymlinks fs res c e hns hl).2
            rw [realpathComps_cons_name fs f res c (rest ++ ys) e hc1 hc2 hl hse] at h
            obtain ⟨m, h1, h2⟩ := ih ys f (res ++ [c]) out h
            refine ⟨m, ?_, ?_⟩
            · rw [realpathComps_cons_name fs f res c rest e hc1 hc2 hl hse]
              exact h1
            · rw [hlen]
              exact h2

/-- C1, counterexample: on a filesystem with `/srv` as the mounted docroot and
an existing `/etc/passwd`, the strict resolver maps the request path
`../etc/passwd` to `/etc/passwd`, which is neither the docroot nor under it —
`uwsgi_webdav_expand_path` performs no containment check, so the claimed
escape safety fails. -/
theorem expand_path_escape_cex :
    uwsgi_webdav_expand_path fsEscape "/srv".data "../etc/passwd".data =
        some "/etc/passwd".data ∧
      "/etc/passwd".data ≠ "/srv".data ∧
      ¬ ("/srv/".data <+: "/etc/passwd".data) :=
  ⟨by decide, by decide, by decide⟩

/-- C1 (amended): the strict resolver returns the realpath canonicalisation
of docroot/path with no containment check, so escape safety only holds on the
`..`-free fragment: for a symlink-free filesystem, a canonical (dot-free)
docroot and a request path with no `..` component, a successful
`uwsgi_webdav_expand_path` yields a path whose canonical components extend the
docroot's. -/
theorem expand_path_no_dotdot_stays_under_docroot
    (fs : Entry) (docroot item r : Txt)
    (hns : noSymlinks fs = true)
    (hdoc : ∀ c ∈ splitPath docroot, c ≠ ['.'] ∧ c ≠ ['.', '.'])
    (hitem : ['.', '.'] ∉ splitPath item)
    (h : uwsgi_webdav_expand_path fs docroot item = some r) :
    splitPath docroot <+: splitPath r := by
  unfold uwsgi_webdav_expand_path realpath at h
  rw [splitPath_append] at h
  cases hrc : realpathComps fs ((docroot ++ '/' :: item).length + 1) []
      (splitPath docroot ++ splitPath item) with
  | none => rw [hrc] at h; cases h
  | some out =>
    rw [hrc] at h
    replace h : (if (joinPath out).length < pathMax then some (joinPath out)
        else none) = some r := h
    by_cases hlen : (joinPath out).length < pathMax
    · rw [if_pos hlen] at h
      injection h with h
      subst h
      obtain ⟨m, h1, h2⟩ := realpathComps_append fs hns (splitPath docroot)
        (splitPath item) _ [] out hrc
      have hm : m = splitPath docroot := by
        have hpl := realpathComps_plain fs hns (splitPath docroot) _ [] m
          (fun c hc => ⟨(splitPath_good docroot c hc).1, (hdoc c hc).1,
            (hdoc c hc).2⟩) h1
        simpa using hpl
      have hpre : m <+: out :=
        realpathComps_growth fs hns (splitPath item) _ m out hitem h2
      have hgood : ∀ c ∈ out, c ≠ [] ∧ '/' ∉ c := by
        refine realpathComps_good fs hns (splitPath docroot ++ splitPath item)
          _ [] out ?_ (by simp) hrc
        intro c hc
        rcases List.mem_append.mp hc with hc | hc
        · exact splitPath_good docroot c hc
        · exact splitPath_good item c hc
      rw [splitPath_joinPath out hgood]
      exact hm ▸ hpre
    · rw [if_neg hlen] at h
      cases h

/-- A docroot with a file `/srv/a/b`, used to witness resolutions that stay
inside the docroot. -/
def fsUnder : Entry :=
  Entry.dirCons "srv".data
    (Entry.dirCons "a".data (Entry.dirCons "b".data Entry.file Entry.dirNil)
      Entry.dirNil)
    Entry.dirNil

/-- C1, witness: the amended theorem applied to the concrete resolution of
`a/b` under docroot `/srv`. -/
theorem expand_path_no_dotdot_stays_under_docroot_w :
    splitPath "/srv".data <+: splitPath "/srv/a/b".data :=
  expand_path_no_dotdot_stays_under_docroot fsUnder "/srv".data "a/b".data
    "/srv/a/b".data (by decide) (by decide) (by decide) (by decide)

/-- A slash-free string has no last slash. -/
theorem lastSlashSplit_none (s : Txt) (h : '/' ∉ s) : lastSlashSplit s = none := by
  induction s with
  | nil => rfl
  | cons c rest ih =>
    have hc : c ≠ '/' := fun hx => h (hx ▸ List.mem_cons_self c rest)
    have hr : '/' ∉ rest := fun hx => h (List.mem_cons_of_mem _ hx)
    simp only [lastSlashSplit, ih hr, if_neg hc]

/-- Splitting `pre ++ '/' :: leaf` with a slash-free leaf at its last slash
gives back `pre` and `'/' :: leaf`. -/
theorem lastSlashSplit_append (pre leaf : Txt) (h : '/' ∉ leaf) :
    lastSlashSplit (pre ++ '/' :: leaf) = some (pre, '/' :: leaf) := by
  induction pre with
  | nil => simp [lastSlashSplit, lastSlashSplit_none leaf h]
  | cons c rest ih =>
    simp only [List.cons_append, lastSlashSplit, List.append_eq, ih]

/-- A docroot `/srv` containing an empty directory `d`, exhibiting the
trailing-slash counterexample to resolver parity. -/
def fsParity : Entry :=
  Entry.dirCons "srv".data (Entry.dirCons "d".data Entry.dirNil Entry.dirNil)
    Entry.dirNil

/-- C2, counterexample: on the request path `/d/` (trailing slash) the strict
resolver succeeds with `/srv/d`, and the parent resolver also succeeds but
returns the different path `/srv/d/`, so parity of results fails. -/
theorem expand_fake_path_trailing_slash_cex :
    uwsgi_webdav_expand_path fsParity "/srv".data "/d/".data =
        some "/srv/d".data ∧
      uwsgi_webdav_expand_fake_path fsParity "/srv".data "/d/".data =
        some "/srv/d/".data ∧
      "/srv/d/".data ≠ "/srv/d".data :=
  ⟨by decide, by decide, by decide⟩

/-- C2 (amended): parity between the strict resolver and the parent resolver
holds for plain leaves: on a symlink-free filesystem with a canonical
non-root docroot, for a request path `pre ++ "/" ++ leaf` whose leaf is a
nonempty slash-free plain name (not `.` or `..`) and whose prefix has no `..`
component, a successful strict resolution forces the parent resolver to
succeed on the same request path with the very same result.  (The converse
still fails when the leaf does not exist, as the parent resolver never
inspects the leaf.) -/
theorem expand_fake_path_parity_plain_leaf
    (fs : Entry) (docroot pre leaf r : Txt)
    (hns : noSymlinks fs = true)
    (hdoc : ∀ c ∈ splitPath docroot, c ≠ ['.'] ∧ c ≠ ['.', '.'])
    (hdne : splitPath docroot ≠ [])
    (hpre : ['.', '.'] ∉ splitPath pre)
    (hl1 : leaf ≠ []) (hl2 : '/' ∉ leaf) (hl3 : leaf ≠ ['.'])
    (hl4 : leaf ≠ ['.', '.'])
    (h : uwsgi_webdav_expand_path fs docroot (pre ++ '/' :: leaf) = some r) :
    uwsgi_webdav_expand_fake_path fs docroot (pre ++ '/' :: leaf) = some r := by
  unfold uwsgi_webdav_expand_path realpath at h
  rw [splitPath_append, splitPath_append, splitPath_single leaf hl1 hl2,
    ← List.append_assoc] at h
  cases hrc : realpathComps fs ((docroot ++ '/' :: (pre ++ '/' :: leaf)).length + 1)
      [] ((splitPath docroot ++ splitPath pre) ++ [leaf]) with
  | none => rw [hrc] at h; cases h
  | some out =>
    rw [hrc] at h
    replace h : (if (joinPath out).length < pathMax then some (joinPath out)
        else none) = some r := h
    by_cases hlen : (joinPath out).length < pathMax
    case neg => rw [if_neg hlen] at h; cases h
    rw [if_pos hlen] at h
    injection h with h
    subst h
    obtain ⟨m, h1, h2⟩ := realpathComps_append fs hns
      (splitPath docroot ++ splitPath pre) [leaf] _ [] out hrc
    -- the docroot components are a prefix of the parent resolution
    have hmpre : splitPath docroot <+: m := by
      obtain ⟨m0, h1a, h1b⟩ := realpathComps_append fs hns (splitPath docroot)
        (splitPath pre) _ [] m h1
      have hm0 : m0 = splitPath docroot := by
        have hpl := realpathComps_plain fs hns (splitPath docroot) _ [] m0
          (fun c hc => ⟨(splitPath_good docroot c hc).1, (hdoc c hc).1,
            (hdoc c hc).2⟩) h1a
        simpa using hpl
      exact hm0 ▸ realpathComps_growth fs hns (splitPath pre) _ m0 m hpre h1b
    have hmne : m ≠ [] := by
      intro hm
      rw [hm, List.prefix_nil] at hmpre
      exact hdne hmpre
    -- evaluate the single leaf step: the leaf exists and out = m ++ [leaf]
    have hc1 : ¬(leaf = [] ∨ leaf = ['.']) := by
      rintro (hx | hx)
      · exact hl1 hx
      · exact hl3 hx
    have hout : out = m ++ [leaf] := by
      cases g : ((docroot ++ '/' :: (pre ++ '/' :: leaf)).length + 1 -
          (splitPath docroot ++ splitPath pre).length) with
      | zero => rw [g] at h2; cases h2
      | succ g1 =>
        rw [g] at h2
        cases hl : stepLookup fs m leaf with
        | none =>
          rw [realpathComps_cons_none fs g1 m leaf [] hc1 hl4 hl] at h2
          cases h2
        | some e =>
          have hse := (stepLookup_noSymlinks fs m leaf e hns hl).2
          rw [realpathComps_cons_name fs g1 m leaf [] e hc1 hl4 hl hse] at h2
          cases g1 with
          | zero => cases h2
          | succ g2 =>
            replace h2 : some (m ++ [leaf]) = some out := h2
            injection h2 with h2
            exact h2.symm
    have hjoin : joinPath out = joinPath m ++ '/' :: leaf := by
      rw [hout, joinPath_snoc m leaf hmne]
    have hlenm : (joinPath m).length < pathMax := by
      rw [hjoin] at hlen
      simp only [List.length_append, List.length_cons] at hlen
      omega
    -- the parent resolver's strict part succeeds with joinPath m
    have hF2 : (splitPath docroot ++ splitPath pre).length + 1 ≤
        (docroot ++ '/' :: pre).length + 1 := by
      have d1 := splitPath_length_le docroot
      have d2 := splitPath_length_le pre
      simp only [List.length_append, List.length_cons]
      omega
    have hstr : uwsgi_webdav_expand_path fs docroot pre = some (joinPath m) := by
      unfold uwsgi_webdav_expand_path realpath
      rw [splitPath_append]
      rw [realpathComps_fuel fs hns (splitPath docroot ++ splitPath pre) _ []
        m h1 _ hF2]
      show (if (joinPath m).length < pathMax then some (joinPath m) else none) =
        some (joinPath m)
      rw [if_pos hlenm]
    -- assemble the parent resolver's run
    have hred : uwsgi_webdav_expand_fake_path fs docroot (pre ++ '/' :: leaf) =
        (if pathMax ≤ (joinPath m).length + ('/' :: leaf).length then none
          else some (joinPath m ++ '/' :: leaf)) := by
      unfold uwsgi_webdav_expand_fake_path
      rw [lastSlashSplit_append pre leaf hl2]
      show (match uwsgi_webdav_expand_path fs docroot pre with
        | none => none
        | some filename =>
            if pathMax ≤ filename.length + ('/' :: leaf).length then none
            else some (filename ++ '/' :: leaf)) = _
      rw [hstr]
    rw [hred, if_neg ?hneg]
    case hneg =>
      rw [hjoin] at hlen
      simp only [List.length_append, List.length_cons] at hlen ⊢
      omega
    rw [← hjoin]

/-- C2, witness: the amended parity theorem at the concrete request `/a/b`
under docroot `/srv`. -/
theorem expand_fake_path_parity_plain_leaf_w :
    uwsgi_webdav_expand_fake_path fsUnder "/srv".data
        ("/a".data ++ '/' :: "b".data) = some "/srv/a/b".data :=
  expand_fake_path_parity_plain_leaf fsUnder "/srv".data "/a".data "b".data
    "/srv/a/b".data (by decide) (by decide) (by decide) (by decide) (by decide)
    (by decide) (by decide) (by decide) (by decide)

/-- The HTTP statuses the WebDAV handlers prepare. -/
inductive Status where
  | s200 | s201 | s204 | s207 | s403 | s404 | s405 | s409 | s412 | s415 | s423 | s500
deriving DecidableEq

/-- Modelled from the spec: the HTTP response collaborator's prepare-status
operation (uwsgi core writer, outside src/).  A request carries a single
status ("errors that prevent even starting a response are reported as a
single HTTP status"), so preparing a status on a request whose response has
already been started fails and leaves the first status in place. -/
def prepare (r : Option Status) (s : Status) : Option Status :=
  match r with
  | some _ => r
  | none => some s

/-- The request fields the MOVE handler reads: `path_info`, the
`HTTP_DESTINATION` and `HTTP_OVERWRITE` request variables (`none` when the
variable is absent), and the scheme/host lengths used to strip the
destination URL down to a request path. -/
structure MoveRequest where
  path_info : Txt
  destination : Option Txt
  overwrite : Option Txt
  scheme_len : Nat
  host_len : Nat

/-- webdav.c line 823: an empty scheme is treated as `http`, length 4. -/
def moveSchemeLen (req : MoveRequest) : Nat :=
  if req.scheme_len = 0 then 4 else req.scheme_len

/-- webdav.c line 827: characters to skip in the Destination header —
scheme, `://` and host. -/
def moveSkip (req : MoveRequest) : Nat :=
  moveSchemeLen req + 3 + req.host_len

/-- webdav.c lines 812-819: overwrite is permitted unless the Overwrite
header is present and starts with `F`. -/
def moveCanOverwrite (req : MoveRequest) : Bool :=
  match req.overwrite with
  | some (c :: _) => if c = 'F' then false else true
  | _ => true

/-- webdav.c lines 796-859, `uwsgi_wevdav_manage_move`.  The filesystem
`rename` outcome is the oracle `renameOk`.  Returns the prepared status and
whether a rename was attempted. -/
def uwsgi_wevdav_manage_move (fs : Entry) (docroot : Txt) (req : MoveRequest)
    (renameOk : Bool) : Status × Bool :=
  match uwsgi_webdav_expand_path fs docroot req.path_info with
  | none => (Status.s404, false)
  | some _ =>
      match req.destination with
      | none => (Status.s403, false)
      | some d =>
          if d.length = 0 then (Status.s403, false)
          else
            match uwsgi_webdav_expand_path fs docroot (d.drop (moveSkip req)) with
            | some _ =>
                if moveCanOverwrite req = false then (Status.s412, false)
                else if renameOk then (Status.s204, true)
                else (Status.s403, true)
            | none =>
                match uwsgi_webdav_expand_fake_path fs docroot
                    (d.drop (moveSkip req)) with
                | none => (Status.s409, false)
                | some _ =>
                    if renameOk then (Status.s201, true) else (Status.s403, true)

/-- C4: the MOVE status contract.  With a resolvable source and a present,
nonempty Destination header: an existing destination with overwrite refused
gives 412 and no rename is attempted; an existing destination with overwrite
permitted and a successful rename gives 204; a fresh destination whose parent
resolves and a successful rename gives 201; a failed rename gives 403. -/
theorem move_status_contract (fs : Entry) (docroot : Txt) (req : MoveRequest)
    (renameOk : Bool) (s d : Txt)
    (hsrc : uwsgi_webdav_expand_path fs docroot req.path_info = some s)
    (hd : req.destination = some d) (hne : d ≠ []) :
    ((∃ dd, uwsgi_webdav_expand_path fs docroot (d.drop (moveSkip req)) = some dd) →
      moveCanOverwrite req = false →
      uwsgi_wevdav_manage_move fs docroot req renameOk = (Status.s412, false)) ∧
    ((∃ dd, uwsgi_webdav_expand_path fs docroot (d.drop (moveSkip req)) = some dd) →
      moveCanOverwrite req = true → renameOk = true →
      uwsgi_wevdav_manage_move fs docroot req renameOk = (Status.s204, true)) ∧
    (uwsgi_webdav_expand_path fs docroot (d.drop (moveSkip req)) = none →
      (∃ dd, uwsgi_webdav_expand_fake_path fs docroot (d.drop (moveSkip req)) =
        some dd) →
      renameOk = true →
      uwsgi_wevdav_manage_move fs docroot req renameOk = (Status.s201, true)) ∧
    (renameOk = false →
      ((∃ dd, uwsgi_webdav_expand_path fs docroot (d.drop (moveSkip req)) =
          some dd) ∧ moveCanOverwrite req = true ∨
        uwsgi_webdav_expand_path fs docroot (d.drop (moveSkip req)) = none ∧
          (∃ dd, uwsgi_webdav_expand_fake_path fs docroot (d.drop (moveSkip req)) =
            some dd)) →
      uwsgi_wevdav_manage_move fs docroot req renameOk = (Status.s403, true)) := by
  have hlen : ¬(d.length = 0) := by
    simpa using hne
  refine ⟨?_, ?_, ?_, ?_⟩
  · rintro ⟨dd, hdd⟩ hov
    simp [uwsgi_wevdav_manage_move, hsrc, hd, hlen, hdd, hov]
  · rintro ⟨dd, hdd⟩ hov hrn
    simp [uwsgi_wevdav_manage_move, hsrc, hd, hlen, hdd, hov, hrn]
  · rintro hdd ⟨dd, hfk⟩ hrn
    simp [uwsgi_wevdav_manage_move, hsrc, hd, hlen, hdd, hfk, hrn]
  · rintro hrn (⟨⟨dd, hdd⟩, hov⟩ | ⟨hdd, ⟨dd, hfk⟩⟩)
    · simp [uwsgi_wevdav_manage_move, hsrc, hd, hlen, hdd, hov, hrn]
    · simp [uwsgi_wevdav_manage_move, hsrc, hd, hlen, hdd, hfk, hrn]

/-- A docroot `/srv` holding the files `a.txt` and `b.txt`, for MOVE. -/
def fsMove : Entry :=
  Entry.dirCons "srv".data
    (Entry.dirCons "a.txt".data Entry.file
      (Entry.dirCons "b.txt".data Entry.file Entry.dirNil))
    Entry.dirNil

/-- A MOVE of `/a.txt` onto the existing `/b.txt` with `Overwrite: F`. -/
def reqMove : MoveRequest :=
  { path_info := "/a.txt".data
    destination := some "http://h/b.txt".data
    overwrite := some "F".data
    scheme_len := 0
    host_len := 1 }

/-- C4, witness: the contract applied to a concrete overwrite-refused MOVE,
yielding 412 with no rename attempted. -/
theorem move_status_contract_w :
    uwsgi_wevdav_manage_move fsMove "/srv".data reqMove true =
      (Status.s412, false) :=
  (move_status_contract fsMove "/srv".data reqMove true "/srv/a.txt".data
      "http://h/b.txt".data (by decide) (by decide) (by decide)).1
    ⟨"/srv/b.txt".data, by decide⟩ (by decide)

/-- C10: with a resolvable source, a missing or empty Destination header makes
MOVE return 403 Forbidden immediately, and no rename is attempted. -/
theorem move_missing_destination_403 (fs : Entry) (docroot : Txt)
    (req : MoveRequest) (renameOk : Bool) (s : Txt)
    (hsrc : uwsgi_webdav_expand_path fs docroot req.path_info = some s)
    (hd : req.destination = none ∨ req.destination = some []) :
    uwsgi_wevdav_manage_move fs docroot req renameOk = (Status.s403, false) := by
  rcases hd with hd | hd
  · simp [uwsgi_wevdav_manage_move, hsrc, hd]
  · simp [uwsgi_wevdav_manage_move, hsrc, hd]

/-- A MOVE of `/a.txt` with no Destination header at all. -/
def reqMoveNoDest : MoveRequest :=
  { path_info := "/a.txt".data
    destination := none
    overwrite := none
    scheme_len := 0
    host_len := 1 }

/-- C10, witness: a concrete MOVE with an absent Destination header. -/
theorem move_missing_destination_403_w :
    uwsgi_wevdav_manage_move fsMove "/srv".data reqMoveNoDest true =
      (Status.s403, false) :=
  move_missing_destination_403 fsMove "/srv".data reqMoveNoDest true
    "/srv/a.txt".data (by decide) (Or.inl (by decide))

/-- webdav.c lines 874-877: MKCOL strips one trailing slash from the request
path when the path is longer than one character. -/
def mkcolStripSlash (path_info : Txt) : Txt :=
  if 1 < path_info.length ∧ path_info.getLast? = some '/' then path_info.dropLast
  else path_info

/-- webdav.c lines 861-890, `uwsgi_wevdav_manage_mkcol`.  `post_cl` is the
request body length and `mkdirOk` the mkdir(2) outcome.  The source's
mkdir-failure branch prepares 409 and then falls through (no return) to an
unconditional preparation of 201, which the response collaborator refuses
because a status has already been prepared. -/
def uwsgi_wevdav_manage_mkcol (fs : Entry) (docroot path_info : Txt)
    (post_cl : Nat) (mkdirOk : Bool) : Option Status :=
  if 0 < post_cl then prepare none Status.s415
  else
    match uwsgi_webdav_expand_path fs docroot path_info with
    | some _ => prepare none Status.s405
    | none =>
        match uwsgi_webdav_expand_fake_path fs docroot
            (mkcolStripSlash path_info) with
        | none => prepare none Status.s409
        | some _ =>
            if mkdirOk then prepare none Status.s201
            else prepare (prepare none Status.s409) Status.s201

/-- C5: the MKCOL status contract — 415 with a nonempty body; 405 when the
target already exists; 409 when the parent cannot be resolved; otherwise 201
exactly when mkdir succeeded and 409 when it failed (the source's stray
unconditional 201 is refused by the already-prepared response). -/
theorem mkcol_status_contract (fs : Entry) (docroot path_info : Txt)
    (post_cl : Nat) (mkdirOk : Bool) :
    (0 < post_cl →
      uwsgi_wevdav_manage_mkcol fs docroot path_info post_cl mkdirOk =
        some Status.s415) ∧
    (post_cl = 0 →
      (∃ f, uwsgi_webdav_expand_path fs docroot path_info = some f) →
      uwsgi_wevdav_manage_mkcol fs docroot path_info post_cl mkdirOk =
        some Status.s405) ∧
    (post_cl = 0 → uwsgi_webdav_expand_path fs docroot path_info = none →
      uwsgi_webdav_expand_fake_path fs docroot (mkcolStripSlash path_info) =
        none →
      uwsgi_wevdav_manage_mkcol fs docroot path_info post_cl mkdirOk =
        some Status.s409) ∧
    (post_cl = 0 → uwsgi_webdav_expand_path fs docroot path_info = none →
      (∃ f, uwsgi_webdav_expand_fake_path fs docroot (mkcolStripSlash path_info) =
        some f) →
      (mkdirOk = true →
        uwsgi_wevdav_manage_mkcol fs docroot path_info post_cl mkdirOk =
          some Status.s201) ∧
      (mkdirOk = false →
        uwsgi_wevdav_manage_mkcol fs docroot path_info post_cl mkdirOk =
          some Status.s409)) := by
  refine ⟨?_, ?_, ?_, ?_⟩
  · intro hcl
    simp [uwsgi_wevdav_manage_mkcol, hcl, prepare]
  · rintro hcl ⟨f, hf⟩
    simp [uwsgi_wevdav_manage_mkcol, hcl, hf, prepare]
  · intro hcl h1 h2
    simp [uwsgi_wevdav_manage_mkcol, hcl, h1, h2, prepare]
  · rintro hcl h1 ⟨f, hf⟩
    refine ⟨fun hm => ?_, fun hm => ?_⟩
    · simp [uwsgi_wevdav_manage_mkcol, hcl, h1, hf, hm, prepare]
    · simp [uwsgi_wevdav_manage_mkcol, hcl, h1, hf, hm, prepare]

/-- C5, witness: MKCOL of `/a/x/` under `/srv` (parent `/srv/a` exists, the
target does not) with a failing mkdir, giving 409. -/
theorem mkcol_status_contract_w :
    uwsgi_wevdav_manage_mkcol fsUnder "/srv".data "/a/x/".data 0 false =
      some Status.s409 :=
  ((mkcol_status_contract fsUnder "/srv".data "/a/x/".data 0 false).2.2.2
    (by decide) (by decide) ⟨"/srv/a/x".data, by decide⟩).2 (by decide)

/-- The PUT body loop (webdav.c lines 534-540): chunks are (bytes,
write-succeeded) pairs, one per `uwsgi_request_body_read` round; a failed
write aborts the loop.  Returns whether everything was written. -/
def writeChunks : List (Txt × Bool) → Bool
  | [] => true
  | (_, ok) :: rest => if ok then writeChunks rest else false

/-- The open-and-stream part of PUT (webdav.c lines 526-544): a failed open
gives 403; otherwise 201 Created is prepared before the body is streamed, so
a failed write can only abort the stream, not change the status. -/
def uwsgi_webdav_put_body (openOk : Bool) (chunks : List (Txt × Bool)) :
    Option Status × Bool :=
  if openOk then (prepare none Status.s201, writeChunks chunks)
  else (prepare none Status.s403, false)

/-- webdav.c lines 514-545, `uwsgi_wevdav_manage_put`: resolve the target
strictly, else resolve its parent; 409 when both fail; then open and stream.
Returns the prepared status and whether the body was written completely. -/
def uwsgi_wevdav_manage_put (fs : Entry) (docroot path_info : Txt)
    (openOk : Bool) (chunks : List (Txt × Bool)) : Option Status × Bool :=
  match uwsgi_webdav_expand_path fs docroot path_info with
  | some _ => uwsgi_webdav_put_body openOk chunks
  | none =>
      match uwsgi_webdav_expand_fake_path fs docroot path_info with
      | none => (prepare none Status.s409, false)
      | some _ => uwsgi_webdav_put_body openOk chunks

/-- C6, counterexample: PUT on the existing file `/a/b` whose single body
write fails still answers 201 Created — the status was prepared before the
write loop — refuting the claim's 403 on write failure. -/
theorem put_write_failure_cex :
    uwsgi_wevdav_manage_put fsUnder "/srv".data "/a/b".data true
        [("x".data, false)] = (some Status.s201, false) ∧
      some Status.s201 ≠ some Status.s403 :=
  ⟨by decide, by decide⟩

/-- C6 (amended): the PUT status contract of the source — 409 Conflict when
neither the target nor its parent resolves; 403 when the open fails; once the
open succeeds the handler prepares 201 Created before streaming, so the
status is 201 whether or not the body writes complete, and a failed write
only shows in the completion flag. -/
theorem put_status_contract (fs : Entry) (docroot path_info : Txt)
    (openOk : Bool) (chunks : List (Txt × Bool)) :
    (uwsgi_webdav_expand_path fs docroot path_info = none →
      uwsgi_webdav_expand_fake_path fs docroot path_info = none →
      uwsgi_wevdav_manage_put fs docroot path_info openOk chunks =
        (some Status.s409, false)) ∧
    ((∃ f, uwsgi_webdav_expand_path fs docroot path_info = some f) ∨
        uwsgi_webdav_expand_path fs docroot path_info = none ∧
          (∃ f, uwsgi_webdav_expand_fake_path fs docroot path_info = some f) →
      (openOk = false →
        uwsgi_wevdav_manage_put fs docroot path_info openOk chunks =
          (some Status.s403, false)) ∧
      (openOk = true →
        uwsgi_wevdav_manage_put fs docroot path_info openOk chunks =
          (some Status.s201, writeChunks chunks))) := by
  constructor
  · intro h1 h2
    simp [uwsgi_wevdav_manage_put, h1, h2, prepare]
  · rintro (⟨f, hf⟩ | ⟨h1, f, hf⟩)
    · refine ⟨fun ho => ?_, fun ho => ?_⟩
      · simp [uwsgi_wevdav_manage_put, hf, uwsgi_webdav_put_body, ho, prepare]
      · simp [uwsgi_wevdav_manage_put, hf, uwsgi_webdav_put_body, ho, prepare]
    · refine ⟨fun ho => ?_, fun ho => ?_⟩
      · simp [uwsgi_wevdav_manage_put, h1, hf, uwsgi_webdav_put_body, ho, prepare]
      · simp [uwsgi_wevdav_manage_put, h1, hf, uwsgi_webdav_put_body, ho, prepare]

/-- C6, witness: the amended contract at a concrete PUT whose open and single
write succeed. -/
theorem put_status_contract_w :
    uwsgi_wevdav_manage_put fsUnder "/srv".data "/a/b".data true
        [("x".data, true)] =
      (some Status.s201, writeChunks [("x".data, true)]) :=
  ((put_status_contract fsUnder "/srv".data "/a/b".data true
      [("x".data, true)]).2 (Or.inl ⟨"/srv/a/b".data, by decide⟩)).2 (by decide)

/-- The xattr key head the plugin reserves (18 characters). -/
def davKeyHead : Txt := "user.uwsgi.webdav.".data

/-- webdav.c lines 366-372 and 382-388: the xattr key encoding a (namespace,
name) pair — the 18-char head, then `ns|` when a namespace is given, then
the property name. -/
def xattrKeyOf (ns : Option Txt) (attr : Txt) : Txt :=
  match ns with
  | some n => davKeyHead ++ n ++ '|' :: attr
  | none => davKeyHead ++ attr

/-- The extended-attribute store of one file, an association list in
listxattr order. -/
abbrev XStore := List (Txt × Txt)

/-- setxattr: overwrite the value under an existing key or append a new
binding. -/
def setxattrStore : XStore → Txt → Txt → XStore
  | [], k, v => [(k, v)]
  | (k0, v0) :: rest, k, v =>
      if k0 = k then (k, v) :: rest else (k0, v0) :: setxattrStore rest k v

/-- webdav.c lines 363-377, `uwsgi_webdav_prop_set`: store the value under
the encoded key (setxattr of strlen(body) bytes). -/
def uwsgi_webdav_prop_set (store : XStore) (attr : Txt) (ns : Option Txt)
    (body : Txt) : XStore :=
  setxattrStore store (xattrKeyOf ns attr) body

/-- webdav.c lines 379-393, `uwsgi_webdav_prop_del`: removexattr of the
encoded key. -/
def uwsgi_webdav_prop_del (store : XStore) (attr : Txt) (ns : Option Txt) :
    XStore :=
  store.filter (fun kv => kv.1 ≠ xattrKeyOf ns attr)

/-- strchr over the model strings: split at the first `|`, when present. -/
def findPipe : Txt → Option (Txt × Txt)
  | [] => none
  | c :: rest =>
      if c = '|' then some ([], rest)
      else
        match findPipe rest with
        | some (a, b) => some (c :: a, b)
        | none => none

/-- The xattr-decoding loop of `uwsgi_webdav_add_props` (webdav.c lines
152-211) with `with_values` set: for every key carrying the
`user.uwsgi.webdav.` head, the characters after the head are split at their
FIRST `|` into namespace and name.  The value-emission guard of the source
tests `rlen` — the length of the whole listxattr name buffer, positive
whenever the loop runs — where `rlen2` (the value length) was meant, so a
property is emitted (as `(name, namespace, value)`) exactly when its stored
value is nonempty, and the source's `else if (rlen == 0)` branch meant for
empty values is dead. -/
def uwsgi_webdav_add_props_dead (store : XStore) : List (Txt × Option Txt × Txt) :=
  store.filterMap fun kv =>
    if davKeyHead.isPrefixOf kv.1 then
      let rest := kv.1.drop 18
      let pair := match findPipe rest with
        | some (a, b) => ((some a : Option Txt), b)
        | none => (none, rest)
      if 0 < kv.2.length then some (pair.2, pair.1, kv.2) else none
    else none

/-- C3: evaluation at the failing input.  Setting the dead property
`(no namespace, "foo", "")` stores the xattr key, yet the dead-property
listing omits it entirely — the `rlen`-for-`rlen2` guard drops every
empty-valued property — so set-then-read does not round-trip as the claim
requires; the same key with a nonempty value does round-trip, namespace and
name included. -/
theorem prop_set_empty_value_dropped :
    uwsgi_webdav_prop_set [] "foo".data none [] =
        [("user.uwsgi.webdav.foo".data, [])] ∧
      uwsgi_webdav_add_props_dead
          (uwsgi_webdav_prop_set [] "foo".data none []) = [] ∧
      uwsgi_webdav_add_props_dead
          (uwsgi_webdav_prop_set [] "foo".data none "v".data) =
        [("foo".data, none, "v".data)] ∧
      uwsgi_webdav_add_props_dead
          (uwsgi_webdav_prop_set [] "foo".data (some "X".data) "v".data) =
        [("foo".data, some "X".data, "v".data)] ∧
      uwsgi_webdav_add_props_dead
          (uwsgi_webdav_prop_del
            (uwsgi_webdav_prop_set [] "foo".data none "v".data)
            "foo".data none) = [] :=
  ⟨by decide, by decide, by decide, by decide, by decide⟩

/-- The names of the entries of a directory chain, in order. -/
def entryNames : Entry → List Txt
  | Entry.dirCons n _ rest => n :: entryNames rest
  | _ => []

/-- One readdir round of the PROPFIND listing loop (webdav.c lines 275-292):
`..` is skipped, `.` is the collection itself, and any other entry name is
appended to the request path (with a separating slash unless the path already
ends in one) and to the filename. -/
def propEntryFor (path_info filename : Txt) (d : Txt) : Option (Txt × Txt) :=
  if d = ['.', '.'] then none
  else if d = ['.'] then some (path_info, filename)
  else if path_info.getLast? = some '/' then
    some (path_info ++ d, filename ++ '/' :: d)
  else some (path_info ++ '/' :: d, filename ++ '/' :: d)

/-- webdav.c lines 244-298, `uwsgi_webdav_manage_prop`, as the list of (href,
file) pairs it adds props for.  `depthHdr` is the number `uwsgi_str_num`
parses from the `Depth` header, `none` when the header is absent — the source
then keeps its initial depth 0.  Depth 0 emits only the target; any other
depth opens the directory and emits one entry per readdir result (a POSIX
directory stream holds `.` and `..` besides the entries); a non-directory
target (opendir failure) is modelled as an empty listing. -/
def uwsgi_webdav_manage_prop (fs : Entry) (path_info filename : Txt)
    (depthHdr : Option Nat) : List (Txt × Txt) :=
  if depthHdr.getD 0 = 0 then [(path_info, filename)]
  else
    match nodeAt fs (splitPath filename) with
    | some e =>
        if isDirE e then
          (['.'] :: ['.', '.'] :: entryNames e).filterMap
            (propEntryFor path_info filename)
        else []
    | none => []

/-- A docroot `/srv` with a subdirectory `c` holding a file `g` — a
grandchild that a Depth-infinity PROPFIND would have to report. -/
def fsDepth : Entry :=
  Entry.dirCons "srv".data
    (Entry.dirCons "c".data (Entry.dirCons "g".data Entry.file Entry.dirNil)
      Entry.dirNil)
    Entry.dirNil

/-- C7, counterexample: with the Depth header absent, PROPFIND on the
collection `/` covers only the collection itself — not its child `/c` (which
an explicit depth does list), let alone the descendant `/c/g` — so an absent
Depth is treated as 0, not as infinity. -/
theorem propfind_depth_absent_cex :
    uwsgi_webdav_manage_prop fsDepth "/".data "/srv".data none =
        [("/".data, "/srv".data)] ∧
      ("/c".data, "/srv/c".data) ∈
        uwsgi_webdav_manage_prop fsDepth "/".data "/srv".data (some 1) ∧
      ("/c".data, "/srv/c".data) ∉
        uwsgi_webdav_manage_prop fsDepth "/".data "/srv".data none :=
  ⟨by decide, by decide, by decide⟩

/-- C7 (amended): an absent Depth header is treated as depth 0 — the response
covers exactly the target, identically to an explicit `Depth: 0` — and any
nonzero parsed depth produces the one-level listing: every emitted entry is
the collection itself or one immediate child; no depth recurses. -/
theorem propfind_depth_contract (fs : Entry) (path_info filename : Txt) :
    uwsgi_webdav_manage_prop fs path_info filename none =
        [(path_info, filename)] ∧
    uwsgi_webdav_manage_prop fs path_info filename none =
        uwsgi_webdav_manage_prop fs path_info filename (some 0) ∧
    ∀ n, n ≠ 0 →
      ∀ pr ∈ uwsgi_webdav_manage_prop fs path_info filename (some n),
        pr.2 = filename ∨
          ∃ e, nodeAt fs (splitPath filename) = some e ∧
            ∃ d ∈ entryNames e, pr.2 = filename ++ '/' :: d := by
  refine ⟨rfl, rfl, ?_⟩
  intro n hn pr hpr
  simp only [uwsgi_webdav_manage_prop, Option.getD_some, if_neg hn] at hpr
  cases hnode : nodeAt fs (splitPath filename) with
  | none => rw [hnode] at hpr; cases hpr
  | some e =>
    rw [hnode] at hpr
    replace hpr : pr ∈ (if isDirE e then
        (['.'] :: ['.', '.'] :: entryNames e).filterMap
          (propEntryFor path_info filename) else []) := hpr
    by_cases hd : isDirE e
    · rw [if_pos hd] at hpr
      obtain ⟨d, hdm, hpd⟩ := List.mem_filterMap.mp hpr
      unfold propEntryFor at hpd
      by_cases h1 : d = ['.', '.']
      · rw [if_pos h1] at hpd
        cases hpd
      · rw [if_neg h1] at hpd
        by_cases h2 : d = ['.']
        · rw [if_pos h2] at hpd
          injection hpd with hpd
          left
          rw [← hpd]
        · rw [if_neg h2] at hpd
          have hdm2 : d ∈ entryNames e := by
            rcases List.mem_cons.mp hdm with hx | hx
            · exact absurd hx h2
            · rcases List.mem_cons.mp hx with hy | hy
              · exact absurd hy h1
              · exact hy
          right
          refine ⟨e, rfl, d, hdm2, ?_⟩
          by_cases h3 : path_info.getLast? = some '/'
          · rw [if_pos h3] at hpd
            injection hpd with hpd
            rw [← hpd]
          · rw [if_neg h3] at hpd
            injection hpd with hpd
            rw [← hpd]
    · rw [if_neg hd] at hpr
      cases hpr

/-- C7, witness: the amended theorem at depth 2 on the concrete listing, for
the entry of the immediate child `/c`. -/
theorem propfind_depth_contract_w :
    (2 ≠ 0) ∧
      (("/c".data, "/srv/c".data).2 = "/srv".data ∨
        ∃ e, nodeAt fsDepth (splitPath "/srv".data) = some e ∧
          ∃ d ∈ entryNames e,
            ("/c".data, "/srv/c".data).2 = "/srv".data ++ '/' :: d) :=
  ⟨by decide,
    (propfind_depth_contract fsDepth "/".data "/srv".data).2.2 2 (by decide)
      ("/c".data, "/srv/c".data) (by decide)⟩

/-- The advisory lock cache shared by the workers: URI key to token value. -/
abbrev LockCache := List (Txt × Txt)

/-- webdav.c lines 892-895, `uwsgi_wevdav_manage_lock`: the handler prepares
a fixed 201 Created and returns — no token is generated, no XML body is
produced, and the lock cache is neither read nor written.  Returns the
prepared status, the (unchanged) cache and the (absent) response body. -/
def uwsgi_wevdav_manage_lock (lockCache : LockCache) :
    Option Status × LockCache × Option Txt :=
  (prepare none Status.s201, lockCache, none)

/-- C9, counterexample: with an unexpired lock for the request URI already in
the shared cache under a different token, LOCK still answers 201 with no body
and no cache write — not the 423 Locked, lock-token XML and cache entry the
claim requires. -/
theorem lock_conflict_cex :
    uwsgi_wevdav_manage_lock [("http://h/a".data, "uuid-1".data)] =
        (some Status.s201, [("http://h/a".data, "uuid-1".data)], none) ∧
      some Status.s201 ≠ some Status.s423 :=
  ⟨rfl, by decide⟩

/-- C9 (amended): every LOCK request is answered with a fixed 201 Created, no
lock-token body, and an untouched lock cache; no conflict is ever detected. -/
theorem lock_stub_contract (lockCache : LockCache) :
    uwsgi_wevdav_manage_lock lockCache = (some Status.s201, lockCache, none) :=
  rfl

/-- A filesystem mutation the DELETE handler performs. -/
inductive FsOp where
  | unlink : List Txt → FsOp
  | rmdir : List Txt → FsOp
deriving DecidableEq

/-- The path an operation targets. -/
def FsOp.path : FsOp → List Txt
  | FsOp.unlink p => p
  | FsOp.rmdir p => p

/-- webdav.c lines 547-581, `uwsgi_webdav_massive_delete`, as its readdir
loop over one directory's chain of entries (the directory's own rmdir is
appended by `uwsgi_webdav_massive_delete_top`): `.` and `..` are skipped by
the source and are not part of the chain; an entry whose d_type is DT_DIR is
deleted recursively — its entries, then its rmdir; any other entry (regular
file or symlink) is unlinked, never entered.  The oracle `faults` tells which
unlink/rmdir calls fail; the first failure aborts the traversal.  Returns
success and the trace of operations performed. -/
def uwsgi_webdav_massive_delete (faults : FsOp → Bool) (path : List Txt) :
    Entry → Bool × List FsOp
  | Entry.dirCons name child rest =>
      if isDirE child then
        let r1 := uwsgi_webdav_massive_delete faults (path ++ [name]) child
        if r1.1 = false then r1
        else if faults (FsOp.rmdir (path ++ [name])) then (false, r1.2)
        else
          let r2 := uwsgi_webdav_massive_delete faults path rest
          (r2.1, r1.2 ++ FsOp.rmdir (path ++ [name]) :: r2.2)
      else
        if faults (FsOp.unlink (path ++ [name])) then (false, [])
        else
          let r2 := uwsgi_webdav_massive_delete faults path rest
          (r2.1, FsOp.unlink (path ++ [name]) :: r2.2)
  | _ => (true, [])

/-- The whole `uwsgi_webdav_massive_delete(dir)` call on a directory: delete
its entries, then rmdir the directory itself (webdav.c line 577). -/
def uwsgi_webdav_massive_delete_top (faults : FsOp → Bool) (path : List Txt)
    (children : Entry) : Bool × List FsOp :=
  let r := uwsgi_webdav_massive_delete faults path children
  if r.1 = false then r
  else if faults (FsOp.rmdir path) then (false, r.2)
  else (true, r.2 ++ [FsOp.rmdir path])

/-- webdav.c lines 583-616, `uwsgi_wevdav_manage_delete`: resolve strictly
(404 on failure); on a directory attempt rmdir first — a fault here is any
failure other than ENOTEMPTY (403); an empty directory is removed by that
rmdir (200); a nonempty one yields ENOTEMPTY and the recursive delete, whose
failure is 403; a non-directory is unlinked (403 on failure; unlinking a path
whose entry vanished also fails).  Returns status and operation trace. -/
def uwsgi_wevdav_manage_delete (faults : FsOp → Bool) (fs : Entry)
    (docroot path_info : Txt) : Status × List FsOp :=
  match uwsgi_webdav_expand_path fs docroot path_info with
  | none => (Status.s404, [])
  | some filename =>
      match nodeAt fs (splitPath filename) with
      | none => (Status.s403, [])
      | some e =>
          if isDirE e then
            if faults (FsOp.rmdir (splitPath filename)) then (Status.s403, [])
            else
              match e with
              | Entry.dirNil => (Status.s200, [FsOp.rmdir (splitPath filename)])
              | ee =>
                  let t := uwsgi_webdav_massive_delete_top faults
                    (splitPath filename) ee
                  (if t.1 then Status.s200 else Status.s403, t.2)
          else
            if faults (FsOp.unlink (splitPath filename)) then (Status.s403, [])
            else (Status.s200, [FsOp.unlink (splitPath filename)])

/-- Directory chains carry pairwise-distinct entry names at every level (as
every real directory does). -/
def uniqNames : Entry → Bool
  | Entry.dirCons name child rest =>
      decide (name ∉ entryNames rest) && uniqNames child && uniqNames rest
  | _ => true

/-- A successful lookup happens in a directory chain. -/
theorem lookupE_isDirE (c : Txt) (e s : Entry) (h : lookupE c e = some s) :
    isDirE e = true := by
  cases e with
  | file => cases h
  | symlink ab t => cases h
  | dirNil => cases h
  | dirCons name child rest => rfl

/-- A successful lookup's key is one of the chain's entry names. -/
theorem lookupE_mem_names (c : Txt) (e s : Entry) (h : lookupE c e = some s) :
    c ∈ entryNames e := by
  induction e with
  | file => cases h
  | symlink ab t => cases h
  | dirNil => cases h
  | dirCons name child rest ih1 ih2 =>
    simp only [lookupE] at h
    by_cases hn : name = c
    · simp [entryNames, hn]
    · rw [if_neg hn] at h
      exact List.mem_cons_of_mem _ (ih2 h)

/-- Destructing a one-step `nodeAt`. -/
theorem nodeAt_cons_some (fs : Entry) (c : Txt) (rest : List Txt) (e : Entry)
    (h : nodeAt fs (c :: rest) = some e) :
    isDirE fs = true ∧ ∃ s, lookupE c fs = some s ∧ nodeAt s rest = some e := by
  simp only [nodeAt] at h
  by_cases hd : isDirE fs
  · rw [if_pos hd] at h
    cases hl : lookupE c fs with
    | none => rw [hl] at h; cases h
    | some s =>
      rw [hl, Option.some_bind] at h
      exact ⟨hd, s, rfl, h⟩
  · rw [if_neg hd] at h
    cases h

/-- Building a one-step `nodeAt`. -/
theorem nodeAt_cons_build (fs : Entry) (c : Txt) (rest : List Txt) (s : Entry)
    (hd : isDirE fs = true) (hl : lookupE c fs = some s) :
    nodeAt fs (c :: rest) = nodeAt s rest := by
  simp [nodeAt, hd, hl]

/-- Walking `nodeAt` decomposes over concatenation. -/
theorem nodeAt_append (fs : Entry) (a b : List Txt) :
    nodeAt fs (a ++ b) = (nodeAt fs a).bind fun e => nodeAt e b := by
  induction a generalizing fs with
  | nil => simp [nodeAt]
  | cons c rest ih =>
    by_cases hd : isDirE fs
    · cases hl : lookupE c fs with
      | none => simp [nodeAt, hd, hl]
      | some e => simp [nodeAt, hd, hl, ih]
    · simp [nodeAt, hd]

/-- With no faults the traversal of a chain succeeds. -/
theorem massive_delete_ok (faults : FsOp → Bool) (hf : ∀ op, faults op = false) :
    ∀ (path : List Txt) (e : Entry),
      (uwsgi_webdav_massive_delete faults path e).1 = true := by
  intro path e
  induction e generalizing path with
  | file => rfl
  | symlink ab t => rfl
  | dirNil => rfl
  | dirCons name child rest ih1 ih2 =>
    by_cases hd : isDirE child
    · simp [uwsgi_webdav_massive_delete, hd, ih1, ih2, hf]
    · simp [uwsgi_webdav_massive_delete, hd, ih2, hf]

/-- Every operation of the chain traversal happens strictly below `path`. -/
theorem massive_delete_inside (faults : FsOp → Bool) :
    ∀ (e : Entry) (path : List Txt),
      ∀ op ∈ (uwsgi_webdav_massive_delete faults path e).2,
        ∃ suf, suf ≠ [] ∧ FsOp.path op = path ++ suf := by
  intro e
  induction e with
  | file => intro path op hop; exact absurd hop (List.not_mem_nil op)
  | symlink ab t => intro path op hop; exact absurd hop (List.not_mem_nil op)
  | dirNil => intro path op hop; exact absurd hop (List.not_mem_nil op)
  | dirCons name child rest ih1 ih2 =>
    intro path op hop
    simp only [uwsgi_webdav_massive_delete] at hop
    by_cases hd : isDirE child
    · rw [if_pos hd] at hop
      by_cases hr1 : (uwsgi_webdav_massive_delete faults (path ++ [name])
          child).1 = false
      · rw [if_pos hr1] at hop
        obtain ⟨suf, hs, hp⟩ := ih1 (path ++ [name]) op hop
        exact ⟨name :: suf, by simp, by simp [hp]⟩
      · rw [if_neg hr1] at hop
        by_cases hfr : faults (FsOp.rmdir (path ++ [name])) = true
        · rw [if_pos hfr] at hop
          obtain ⟨suf, hs, hp⟩ := ih1 (path ++ [name]) op hop
          exact ⟨name :: suf, by simp, by simp [hp]⟩
        · rw [if_neg hfr] at hop
          rcases List.mem_append.mp hop with h | h
          · obtain ⟨suf, hs, hp⟩ := ih1 (path ++ [name]) op h
            exact ⟨name :: suf, by simp, by simp [hp]⟩
          · rcases List.mem_cons.mp h with h | h
            · exact ⟨[name], by simp, by simp [h, FsOp.path]⟩
            · exact ih2 path op h
    · rw [if_neg hd] at hop
      by_cases hfu : faults (FsOp.unlink (path ++ [name])) = true
      · rw [if_pos hfu] at hop
        exact absurd hop (List.not_mem_nil op)
      · rw [if_neg hfu] at hop
        rcases List.mem_cons.mp hop with h | h
        · exact ⟨[name], by simp, by simp [h, FsOp.path]⟩
        · exact ih2 path op h

/-- Every rmdir of a chain traversal (with distinct entry names) targets an
entry of the original chain that is a directory — symlinks are never treated
as directories. -/
theorem massive_delete_rmdir_dirs (faults : FsOp → Bool) :
    ∀ (e : Entry) (path q : List Txt), uniqNames e = true →
      FsOp.rmdir q ∈ (uwsgi_webdav_massive_delete faults path e).2 →
      ∃ rel sub, rel ≠ [] ∧ q = path ++ rel ∧ nodeAt e rel = some sub ∧
        isDirE sub = true := by
  intro e
  induction e with
  | file => intro path q _ hop; exact absurd hop (List.not_mem_nil _)
  | symlink ab t => intro path q _ hop; exact absurd hop (List.not_mem_nil _)
  | dirNil => intro path q _ hop; exact absurd hop (List.not_mem_nil _)
  | dirCons name child rest ih1 ih2 =>
    intro path q hu hop
    have hu' : name ∉ entryNames rest ∧ uniqNames child = true ∧
        uniqNames rest = true := by
      simpa [uniqNames, Bool.and_eq_true, and_assoc] using hu
    obtain ⟨hnm, hu1, hu2⟩ := hu'
    simp only [uwsgi_webdav_massive_delete] at hop
    have liftChild : (∃ rel sub, rel ≠ [] ∧ q = (path ++ [name]) ++ rel ∧
        nodeAt child rel = some sub ∧ isDirE sub = true) →
        ∃ rel sub, rel ≠ [] ∧ q = path ++ rel ∧
          nodeAt (Entry.dirCons name child rest) rel = some sub ∧
          isDirE sub = true := by
      rintro ⟨rel, sub, hne, hq, hnd, hds⟩
      refine ⟨name :: rel, sub, by simp, by simp [hq], ?_, hds⟩
      rw [nodeAt_cons_build (Entry.dirCons name child rest) name rel child
        rfl (by simp [lookupE])]
      exact hnd
    have liftRest : (∃ rel sub, rel ≠ [] ∧ q = path ++ rel ∧
        nodeAt rest rel = some sub ∧ isDirE sub = true) →
        ∃ rel sub, rel ≠ [] ∧ q = path ++ rel ∧
          nodeAt (Entry.dirCons name child rest) rel = some sub ∧
          isDirE sub = true := by
      rintro ⟨rel, sub, hne, hq, hnd, hds⟩
      cases rel with
      | nil => exact absurd rfl hne
      | cons c0 rel2 =>
        obtain ⟨hdr, s, hls, hnd2⟩ := nodeAt_cons_some rest c0 rel2 sub hnd
        have hc0 : name ≠ c0 := by
          intro hx
          exact hnm (hx ▸ lookupE_mem_names c0 rest s hls)
        refine ⟨c0 :: rel2, sub, by simp, hq, ?_, hds⟩
        rw [nodeAt_cons_build (Entry.dirCons name child rest) c0 rel2 s rfl
          (by simp [lookupE, hc0, hls])]
        exact hnd2
    by_cases hd : isDirE child
    · rw [if_pos hd] at hop
      by_cases hr1 : (uwsgi_webdav_massive_delete faults (path ++ [name])
          child).1 = false
      · rw [if_pos hr1] at hop
        exact liftChild (ih1 (path ++ [name]) q hu1 hop)
      · rw [if_neg hr1] at hop
        by_cases hfr : faults (FsOp.rmdir (path ++ [name])) = true
        · rw [if_pos hfr] at hop
          exact liftChild (ih1 (path ++ [name]) q hu1 hop)
        · rw [if_neg hfr] at hop
          rcases List.mem_append.mp hop with h | h
          · exact liftChild (ih1 (path ++ [name]) q hu1 h)
          · rcases List.mem_cons.mp h with h | h
            · have hq : q = path ++ [name] := by injection h
              refine ⟨[name], child, by simp, hq, ?_, hd⟩
              rw [nodeAt_cons_build (Entry.dirCons name child rest) name []
                child rfl (by simp [lookupE])]
              rfl
            · exact liftRest (ih2 path q hu2 h)
    · rw [if_neg hd] at hop
      by_cases hfu : faults (FsOp.unlink (path ++ [name])) = true
      · rw [if_pos hfu] at hop
        exact absurd hop (List.not_mem_nil _)
      · rw [if_neg hfu] at hop
        rcases List.mem_cons.mp hop with h | h
        · cases h
        · exact liftRest (ih2 path q hu2 h)

/-- On a successful chain traversal, every symbolic link inside the subtree
has been unlinked at its own path — links are never followed or entered. -/
theorem massive_delete_symlink_unlinked (faults : FsOp → Bool) :
    ∀ (e : Entry) (path rel : List Txt) (ab : Bool) (t : List Txt),
      (uwsgi_webdav_massive_delete faults path e).1 = true →
      rel ≠ [] → nodeAt e rel = some (Entry.symlink ab t) →
      FsOp.unlink (path ++ rel) ∈
        (uwsgi_webdav_massive_delete faults path e).2 := by
  intro e
  induction e with
  | file =>
    intro path rel ab t _ hne hrel
    cases rel with
    | nil => exact absurd rfl hne
    | cons c0 rel2 => simp [nodeAt, isDirE] at hrel
  | symlink ab2 t2 =>
    intro path rel ab t _ hne hrel
    cases rel with
    | nil => exact absurd rfl hne
    | cons c0 rel2 => simp [nodeAt, isDirE] at hrel
  | dirNil =>
    intro path rel ab t _ hne hrel
    cases rel with
    | nil => exact absurd rfl hne
    | cons c0 rel2 => simp [nodeAt, isDirE, lookupE] at hrel
  | dirCons name child rest ih1 ih2 =>
    intro path rel ab t hok hne hrel
    cases rel with
    | nil => exact absurd rfl hne
    | cons c0 rel2 =>
      obtain ⟨hdE, s, hls, hnd2⟩ := nodeAt_cons_some _ c0 rel2 _ hrel
      simp only [uwsgi_webdav_massive_delete] at hok ⊢
      by_cases hd : isDirE child
      · rw [if_pos hd] at hok ⊢
        by_cases hr1 : (uwsgi_webdav_massive_delete faults (path ++ [name])
            child).1 = false
        · rw [if_pos hr1] at hok
          rw [hr1] at hok
          cases hok
        · rw [if_neg hr1] at hok ⊢
          by_cases hfr : faults (FsOp.rmdir (path ++ [name])) = true
          · rw [if_pos hfr] at hok
            cases hok
          · rw [if_neg hfr] at hok ⊢
            replace hok : (uwsgi_webdav_massive_delete faults path rest).1 =
              true := hok
            by_cases hc : name = c0
            · subst hc
              have hchild : s = child := by
                simp only [lookupE, if_pos rfl] at hls
                injection hls with h2
                exact h2.symm
              subst hchild
              cases rel2 with
              | nil =>
                replace hnd2 : some s = some (Entry.symlink ab t) := hnd2
                injection hnd2 with h2
                rw [h2] at hd
                cases hd
              | cons d rel3 =>
                have hok1 : (uwsgi_webdav_massive_delete faults
                    (path ++ [name]) s).1 = true := by
                  revert hr1
                  cases (uwsgi_webdav_massive_delete faults (path ++ [name])
                    s).1 <;> simp
                have hm := ih1 (path ++ [name]) (d :: rel3) ab t hok1
                  (by simp) hnd2
                have hm2 := List.mem_append_left
                  (FsOp.rmdir (path ++ [name]) ::
                    (uwsgi_webdav_massive_delete faults path rest).2) hm
                simpa using hm2
            · have hls2 : lookupE c0 rest = some s := by
                simp only [lookupE, if_neg hc] at hls
                exact hls
              have hrest : nodeAt rest (c0 :: rel2) =
                  some (Entry.symlink ab t) := by
                rw [nodeAt_cons_build rest c0 rel2 s
                  (lookupE_isDirE c0 rest s hls2) hls2]
                exact hnd2
              have hm := ih2 path (c0 :: rel2) ab t hok (by simp) hrest
              exact List.mem_append_right _ (List.mem_cons_of_mem _ hm)
      · rw [if_neg hd] at hok ⊢
        by_cases hfu : faults (FsOp.unlink (path ++ [name])) = true
        · rw [if_pos hfu] at hok
          cases hok
        · rw [if_neg hfu] at hok ⊢
          replace hok : (uwsgi_webdav_massive_delete faults path rest).1 =
            true := hok
          by_cases hc : name = c0
          · subst hc
            have hchild : s = child := by
              simp only [lookupE, if_pos rfl] at hls
              injection hls with h2
              exact h2.symm
            subst hchild
            cases rel2 with
            | nil => exact List.mem_cons_self _ _
            | cons d rel3 =>
              obtain ⟨hdd, _⟩ := nodeAt_cons_some s d rel3 _ hnd2
              exact absurd hdd hd
          · have hls2 : lookupE c0 rest = some s := by
              simp only [lookupE, if_neg hc] at hls
              exact hls
            have hrest : nodeAt rest (c0 :: rel2) =
                some (Entry.symlink ab t) := by
              rw [nodeAt_cons_build rest c0 rel2 s
                (lookupE_isDirE c0 rest s hls2) hls2]
              exact hnd2
            have hm := ih2 path (c0 :: rel2) ab t hok (by simp) hrest
            exact List.mem_cons_of_mem _ hm

/-- Destructing a successful whole-directory delete: the chain traversal
succeeded, the final rmdir was not faulted, and the trace is the chain trace
followed by that rmdir. -/
theorem massive_delete_top_success (faults : FsOp → Bool) (path : List Txt)
    (e : Entry)
    (h : (uwsgi_webdav_massive_delete_top faults path e).1 = true) :
    (uwsgi_webdav_massive_delete faults path e).1 = true ∧
      faults (FsOp.rmdir path) = false ∧
      (uwsgi_webdav_massive_delete_top faults path e).2 =
        (uwsgi_webdav_massive_delete faults path e).2 ++ [FsOp.rmdir path] := by
  simp only [uwsgi_webdav_massive_delete_top] at h ⊢
  by_cases hr : (uwsgi_webdav_massive_delete faults path e).1 = false
  · rw [if_pos hr] at h
    rw [hr] at h
    cases h
  · rw [if_neg hr] at h ⊢
    by_cases hf : faults (FsOp.rmdir path) = true
    · rw [if_pos hf] at h
      cases h
    · rw [if_neg hf] at h ⊢
      refine ⟨?_, ?_, rfl⟩
      · revert hr
        cases (uwsgi_webdav_massive_delete faults path e).1 <;> simp
      · revert hf
        cases faults (FsOp.rmdir path) <;> simp

/-- With no faults the whole-directory delete succeeds. -/
theorem massive_delete_top_ok (faults : FsOp → Bool)
    (hf : ∀ op, faults op = false) (path : List Txt) (e : Entry) :
    (uwsgi_webdav_massive_delete_top faults path e).1 = true := by
  simp [uwsgi_webdav_massive_delete_top, massive_delete_ok faults hf path e, hf]

/-- Every operation of the whole-directory delete stays at or below the
directory's path. -/
theorem massive_delete_top_inside (faults : FsOp → Bool) (path : List Txt)
    (e : Entry) :
    ∀ op ∈ (uwsgi_webdav_massive_delete_top faults path e).2,
      path <+: FsOp.path op := by
  intro op hop
  simp only [uwsgi_webdav_massive_delete_top] at hop
  by_cases hr : (uwsgi_webdav_massive_delete faults path e).1 = false
  · rw [if_pos hr] at hop
    obtain ⟨suf, _, hp⟩ := massive_delete_inside faults e path op hop
    rw [hp]
    exact List.prefix_append path suf
  · rw [if_neg hr] at hop
    by_cases hf : faults (FsOp.rmdir path) = true
    · rw [if_pos hf] at hop
      obtain ⟨suf, _, hp⟩ := massive_delete_inside faults e path op hop
      rw [hp]
      exact List.prefix_append path suf
    · rw [if_neg hf] at hop
      rcases List.mem_append.mp hop with h | h
      · obtain ⟨suf, _, hp⟩ := massive_delete_inside faults e path op h
        rw [hp]
        exact List.prefix_append path suf
      · have hop2 : op = FsOp.rmdir path := by simpa using h
        rw [hop2]
        exact List.prefix_refl path

/-- On success the directory itself is removed by the very last operation,
after every operation on its proper descendants. -/
theorem massive_delete_top_last (faults : FsOp → Bool) (path : List Txt)
    (e : Entry)
    (h : (uwsgi_webdav_massive_delete_top faults path e).1 = true) :
    ∃ tr, (uwsgi_webdav_massive_delete_top faults path e).2 =
        tr ++ [FsOp.rmdir path] ∧ ∀ op ∈ tr, FsOp.path op ≠ path := by
  obtain ⟨h1, h2, h3⟩ := massive_delete_top_success faults path e h
  refine ⟨(uwsgi_webdav_massive_delete faults path e).2, h3, ?_⟩
  intro op hop
  obtain ⟨suf, hs, hp⟩ := massive_delete_inside faults e path op hop
  rw [hp]
  intro heq
  have hlen := congrArg List.length heq
  simp only [List.length_append] at hlen
  have hz : suf.length = 0 := by omega
  exact hs (List.length_eq_zero.mp hz)

/-- Every rmdir of the whole-directory delete targets the directory itself or
a directory of the original subtree. -/
theorem massive_delete_top_rmdir_dirs (faults : FsOp → Bool) (path : List Txt)
    (e : Entry) (hu : uniqNames e = true) (q : List Txt)
    (hop : FsOp.rmdir q ∈ (uwsgi_webdav_massive_delete_top faults path e).2) :
    q = path ∨ ∃ rel sub, rel ≠ [] ∧ q = path ++ rel ∧
      nodeAt e rel = some sub ∧ isDirE sub = true := by
  simp only [uwsgi_webdav_massive_delete_top] at hop
  by_cases hr : (uwsgi_webdav_massive_delete faults path e).1 = false
  · rw [if_pos hr] at hop
    exact Or.inr (massive_delete_rmdir_dirs faults e path q hu hop)
  · rw [if_neg hr] at hop
    by_cases hf : faults (FsOp.rmdir path) = true
    · rw [if_pos hf] at hop
      exact Or.inr (massive_delete_rmdir_dirs faults e path q hu hop)
    · rw [if_neg hf] at hop
      rcases List.mem_append.mp hop with h | h
      · exact Or.inr (massive_delete_rmdir_dirs faults e path q hu h)
      · left
        have h2 : FsOp.rmdir q = FsOp.rmdir path := by simpa using h
        injection h2

/-- On success, every symbolic link of the subtree has been unlinked. -/
theorem massive_delete_top_symlink (faults : FsOp → Bool) (path : List Txt)
    (e : Entry)
    (h : (uwsgi_webdav_massive_delete_top faults path e).1 = true)
    (rel : List Txt) (ab : Bool) (t : List Txt) (hne : rel ≠ [])
    (hrel : nodeAt e rel = some (Entry.symlink ab t)) :
    FsOp.unlink (path ++ rel) ∈
      (uwsgi_webdav_massive_delete_top faults path e).2 := by
  obtain ⟨h1, h2, h3⟩ := massive_delete_top_success faults path e h
  rw [h3]
  exact List.mem_append_left _
    (massive_delete_symlink_unlinked faults e path rel ab t h1 hne hrel)

/-- C8: the recursive DELETE contract for a nonempty directory whose initial
rmdir yields ENOTEMPTY (not a fault).  (a) the handler answers 200 when the
depth-first traversal succeeds and 403 when any operation inside fails, and
its trace is the traversal's; (b) with no faults the handler answers 200;
(c) every operation stays inside the deleted subtree; (d) on success the
directory itself is removed by the last operation, after all operations on
its proper descendants; (e) every rmdir targets a directory of the original
tree; (f) on success every symbolic link inside the subtree was unlinked,
never followed. -/
theorem delete_recursive_contract (faults : FsOp → Bool) (fs : Entry)
    (docroot path_info filename : Txt) (n : Txt) (c r : Entry)
    (hexp : uwsgi_webdav_expand_path fs docroot path_info = some filename)
    (hnode : nodeAt fs (splitPath filename) = some (Entry.dirCons n c r))
    (hrm : faults (FsOp.rmdir (splitPath filename)) = false)
    (hu : uniqNames (Entry.dirCons n c r) = true) :
    (uwsgi_wevdav_manage_delete faults fs docroot path_info =
      (if (uwsgi_webdav_massive_delete_top faults (splitPath filename)
          (Entry.dirCons n c r)).1 then Status.s200 else Status.s403,
        (uwsgi_webdav_massive_delete_top faults (splitPath filename)
          (Entry.dirCons n c r)).2)) ∧
    ((∀ op, faults op = false) →
      uwsgi_wevdav_manage_delete faults fs docroot path_info =
        (Status.s200, (uwsgi_webdav_massive_delete_top faults
          (splitPath filename) (Entry.dirCons n c r)).2)) ∧
    (∀ op ∈ (uwsgi_webdav_massive_delete_top faults (splitPath filename)
        (Entry.dirCons n c r)).2, splitPath filename <+: FsOp.path op) ∧
    ((uwsgi_webdav_massive_delete_top faults (splitPath filename)
        (Entry.dirCons n c r)).1 = true →
      ∃ tr, (uwsgi_webdav_massive_delete_top faults (splitPath filename)
          (Entry.dirCons n c r)).2 = tr ++ [FsOp.rmdir (splitPath filename)] ∧
        ∀ op ∈ tr, FsOp.path op ≠ splitPath filename) ∧
    (∀ q, FsOp.rmdir q ∈ (uwsgi_webdav_massive_delete_top faults
        (splitPath filename) (Entry.dirCons n c r)).2 →
      ∃ sub, nodeAt fs q = some sub ∧ isDirE sub = true) ∧
    ((uwsgi_webdav_massive_delete_top faults (splitPath filename)
        (Entry.dirCons n c r)).1 = true →
      ∀ rel ab t, rel ≠ [] →
        nodeAt (Entry.dirCons n c r) rel = some (Entry.symlink ab t) →
        FsOp.unlink (splitPath filename ++ rel) ∈
          (uwsgi_webdav_massive_delete_top faults (splitPath filename)
            (Entry.dirCons n c r)).2) := by
  have ha : uwsgi_wevdav_manage_delete faults fs docroot path_info =
      (if (uwsgi_webdav_massive_delete_top faults (splitPath filename)
          (Entry.dirCons n c r)).1 then Status.s200 else Status.s403,
        (uwsgi_webdav_massive_delete_top faults (splitPath filename)
          (Entry.dirCons n c r)).2) := by
    simp [uwsgi_wevdav_manage_delete, hexp, hnode, isDirE, hrm]
  refine ⟨ha, ?_, massive_delete_top_inside faults _ _,
    massive_delete_top_last faults _ _, ?_, ?_⟩
  · intro hf
    rw [ha]
    simp [massive_delete_top_ok faults hf]
  · intro q hq
    rcases massive_delete_top_rmdir_dirs faults (splitPath filename)
        (Entry.dirCons n c r) hu q hq with h | ⟨rel, sub, hne, hqe, hnd, hds⟩
    · refine ⟨Entry.dirCons n c r, ?_, rfl⟩
      rw [h]
      exact hnode
    · refine ⟨sub, ?_, hds⟩
      rw [hqe, nodeAt_append, hnode, Option.some_bind]
      exact hnd
  · intro hok rel ab t hne hrel
    exact massive_delete_top_symlink faults _ _ hok rel ab t hne hrel

/-- The all-succeeding fault oracle. -/
def noFaults : FsOp → Bool := fun _ => false

/-- A docroot `/srv` with a directory `d` holding a file `f`, a symlink `l`
and a subdirectory `s` that holds a file `g`. -/
def fsDel : Entry :=
  Entry.dirCons "srv".data
    (Entry.dirCons "d".data
      (Entry.dirCons "f".data Entry.file
        (Entry.dirCons "l".data (Entry.symlink false ["x".data])
          (Entry.dirCons "s".data
            (Entry.dirCons "g".data Entry.file Entry.dirNil)
            Entry.dirNil)))
      Entry.dirNil)
    Entry.dirNil

/-- C8, witness: the contract's no-fault conjunct at the concrete DELETE of
`/d` — the handler answers 200 with the traversal's trace. -/
theorem delete_recursive_contract_w :
    uwsgi_wevdav_manage_delete noFaults fsDel "/srv".data "/d".data =
      (Status.s200, (uwsgi_webdav_massive_delete_top noFaults
        (splitPath "/srv/d".data)
        (Entry.dirCons "f".data Entry.file
          (Entry.dirCons "l".data (Entry.symlink false ["x".data])
            (Entry.dirCons "s".data
              (Entry.dirCons "g".data Entry.file Entry.dirNil)
              Entry.dirNil)))).2) :=
  (delete_recursive_contract noFaults fsDel "/srv".data "/d".data
      "/srv/d".data "f".data Entry.file
      (Entry.dirCons "l".data (Entry.symlink false ["x".data])
        (Entry.dirCons "s".data
          (Entry.dirCons "g".data Entry.file Entry.dirNil) Entry.dirNil))
      (by decide) (by rfl) (by rfl) (by decide)).2.1
    (fun _ => rfl)
